import Mathlib

/-!
Shallow embedding of the `flow` concurrency-combinator library.

Errors: Go `error` values are modelled as `Option (GoError E)`: `none` is the
nil error, `some` a non-nil error.  A non-nil error is either a base error
(any task-produced error, drawn from an arbitrary type `E`) or a `multiError`
(the aggregate built by the Parallel family), mirroring Go's dynamic type
test `err.(multiError)` in `Errors`.

Concurrency: the fan-out submits one job per task; the fan-in loop receives
the task results from an unbuffered channel in completion order, an order
the scheduler chooses arbitrarily.  We therefore model a coordination call
as a function of the completion-ordered list of results, and quantify over
all permutations of the tasks' results where a claim is order-independent.
-/

/-- A Go error value that is non-nil: either a task's own (base) error or a
`multiError` aggregate (`multiError []error` in `flow.go`). -/
inductive GoError (E : Type) where
  | base : E → GoError E
  | multi : List (GoError E) → GoError E

/-- `multiError.ErrorOrNil` (`flow.go:45-50`): a non-empty member list is
returned as the aggregate itself, an empty one as nil. -/
def errorOrNil {E : Type} (m : List (GoError E)) : Option (GoError E) :=
  if m.length > 0 then some (GoError.multi m) else none

/-- `Errors` (`flow.go:53-58`): dynamic type test for `multiError`; returns
the member list when the error is an aggregate, nil otherwise. -/
def Errors {E : Type} : Option (GoError E) → List (GoError E)
  | some (GoError.multi m) => m
  | _ => []

/-!
`Sequence` (`flow.go:65-76`) runs on the caller's goroutine; a task is
modelled by the error it returns, and the caller's context by the value
`ctx.Err()` yields at the k-th post-task check (`ctxErr k`), so that a
signal cancelled mid-sequence is expressible.
-/

/-- `Sequence` (`flow.go:65-76`), started at post-task check index `k`:
run each task in order; a task's non-nil error is returned at once,
otherwise `ctx.Err()` is consulted and a non-nil value returned. -/
def SequenceFrom {E : Type} (ctxErr : Nat → Option (GoError E)) (k : Nat) :
    List (Option (GoError E)) → Option (GoError E)
  | [] => none
  | t :: ts =>
    match t with
    | some e => some e
    | none =>
      match ctxErr k with
      | some e => some e
      | none => SequenceFrom ctxErr (k + 1) ts

/-- `Sequence` from the first check. -/
def Sequence {E : Type} (ctxErr : Nat → Option (GoError E))
    (tasks : List (Option (GoError E))) : Option (GoError E) :=
  SequenceFrom ctxErr 0 tasks

/-- Number of tasks the `Sequence` loop invokes (each loop iteration calls
`fn(ctx)` exactly once before testing its error and the context). -/
def seqInvokedFrom {E : Type} (ctxErr : Nat → Option (GoError E)) (k : Nat) :
    List (Option (GoError E)) → Nat
  | [] => 0
  | t :: ts =>
    1 + match t with
        | some _ => 0
        | none =>
          match ctxErr k with
          | some _ => 0
          | none => seqInvokedFrom ctxErr (k + 1) ts

/-- Invocation count of `Sequence` from the first check. -/
def seqInvoked {E : Type} (ctxErr : Nat → Option (GoError E))
    (tasks : List (Option (GoError E))) : Nat :=
  seqInvokedFrom ctxErr 0 tasks

/-!
Fan-out (`Flow.runAll`, `flow.go:86-105`): with `l = 0` it returns before
submitting anything; otherwise it submits one job per index `0 ≤ i < l`.
The `Parallel` family allocates its completion channel only after its own
`len(fns) == 0` early return, before calling `runAll`.
-/

/-- Indices submitted by `Flow.runAll` (`flow.go:86-105`): none for `l = 0`,
otherwise one job per index of `0..l-1`. -/
def runAllSubmitted (l : Nat) : List Nat :=
  if l = 0 then [] else List.range l

/-- Whether a `Parallel`/`Race` family call reaches its `make(chan ...)`:
the `len(fns) == 0` early return happens first. -/
def channelAllocated (n : Nat) : Bool :=
  !(n == 0)

/-- The `Parallel` fan-in loop (`flow.go:121-126`): non-nil received errors
are appended in arrival order. -/
def collectErrors {E : Type} : List (Option (GoError E)) → List (GoError E)
  | [] => []
  | none :: rs => collectErrors rs
  | some e :: rs => e :: collectErrors rs

/-- `Flow.Parallel` (`flow.go:111-128`) as a function of the
completion-ordered results: early return for zero tasks, else
`ErrorOrNil` of the collected errors. -/
def Parallel {E : Type} (completions : List (Option (GoError E))) :
    Option (GoError E) :=
  if completions.length = 0 then none
  else errorOrNil (collectErrors completions)

theorem collectErrors_eq_filterMap {E : Type}
    (rs : List (Option (GoError E))) : collectErrors rs = rs.filterMap id := by
  induction rs with
  | nil => rfl
  | cons r rs ih => cases r <;> simp [collectErrors, ih]

/-!
`Flow.ParallelCancelOnError` (`flow.go:134-156`): a child cancellable
context is derived before fan-out; the fan-in loop calls `cancel()` upon
each non-nil error it receives.  A task is modelled as a function of the
Boolean "child signal cancelled" state it observes; the list is in
completion order, and a task that completes after the coordinator received
an error observes the cancelled signal (cooperative cancellation as the
spec describes it: cancellation is visible to later completions).
-/

/-- One fan-in run of `ParallelCancelOnError` (`flow.go:148-154`): the log
of `(cancelled-state observed by the task, error it returned)` pairs in
completion order, threading the child signal state `c`; a non-nil error
switches the state to cancelled (`cancel()` is idempotent, so `||`). -/
def pcoeRun {E : Type} (c : Bool) :
    List (Bool → Option (GoError E)) → List (Bool × Option (GoError E))
  | [] => []
  | t :: ts => (c, t c) :: pcoeRun (c || (t c).isSome) ts

/-- `Flow.ParallelCancelOnError` (`flow.go:134-156`): aggregate of every
non-nil received error, in completion order. -/
def ParallelCancelOnError {E : Type}
    (tasks : List (Bool → Option (GoError E))) : Option (GoError E) :=
  if tasks.length = 0 then none
  else errorOrNil ((pcoeRun false tasks).filterMap (fun p => p.2))

/-!
`Flow.Race` (`flow.go:163-181`): receive the first result, `cancel()`, then
drain the channel with `for range results {}` on the calling goroutine, and
only then return the first result.  We record the call's observable event
sequence so that statements about what happens before the return are
expressible.
-/

/-- An observable event of a `Race` call: a receive from the completion
channel, the `cancel()` of the child context, or the return. -/
inductive RaceEvent (E : Type) where
  | recv (r : Option (GoError E))
  | cancelChild
  | ret (r : Option (GoError E))

/-- Event sequence of `Flow.Race` (`flow.go:163-181`) on the calling
goroutine, as a function of the completion-ordered results: zero tasks
return nil at once; otherwise the first result is received, the child
context cancelled, the remaining results drained, and the first result
returned. -/
def raceTrace {E : Type} (completions : List (Option (GoError E))) :
    List (RaceEvent E) :=
  match completions with
  | [] => [RaceEvent.ret none]
  | r :: rs =>
    RaceEvent.recv r :: RaceEvent.cancelChild ::
      (rs.map RaceEvent.recv ++ [RaceEvent.ret r])

/-- Value returned by `Flow.Race`: nil for zero tasks, else the first
completion unchanged. -/
def raceResult {E : Type} (completions : List (Option (GoError E))) :
    Option (GoError E) :=
  match completions with
  | [] => none
  | r :: _ => r

/-- Number of channel receives a trace performs before its return event. -/
def recvCountBeforeRet {E : Type} : List (RaceEvent E) → Nat
  | [] => 0
  | RaceEvent.ret _ :: _ => 0
  | RaceEvent.recv _ :: es => recvCountBeforeRet es + 1
  | RaceEvent.cancelChild :: es => recvCountBeforeRet es

/-- The results received anywhere in a trace, in receive order. -/
def recvValues {E : Type} : List (RaceEvent E) → List (Option (GoError E))
  | [] => []
  | RaceEvent.recv r :: es => r :: recvValues es
  | RaceEvent.ret _ :: es => recvValues es
  | RaceEvent.cancelChild :: es => recvValues es

/-- Modelled from the spec: the event sequence §4.6 describes for `Race` —
the winner is received, the child context cancelled, the call returns, and
the losers are drained afterwards on a background thread of control. -/
def raceTraceSpec {E : Type} (completions : List (Option (GoError E))) :
    List (RaceEvent E) :=
  match completions with
  | [] => [RaceEvent.ret none]
  | r :: rs =>
    RaceEvent.recv r :: RaceEvent.cancelChild :: RaceEvent.ret r ::
      rs.map RaceEvent.recv

/-!
`Flow.RaceCond` (`flow.go:464-489`): the fan-in loop skips `(false, nil)`
results; on the first result with a non-nil error or a `true` value it
cancels and keeps that result; the zero `boolResult` is returned when no
result qualifies.  Typed results are pairs `(value, error)`.
-/

/-- The `RaceCond` fan-in loop (`flow.go:478-485`): first qualifying result
(non-nil error or true value) together with whether the loop issued a
`cancel()`; the zero result `(false, nil)` when none qualifies. -/
def raceCondLoop {E : Type} :
    List (Bool × Option (GoError E)) → (Bool × Option (GoError E)) × Bool
  | [] => ((false, none), false)
  | r :: rs =>
    if r.2.isSome || r.1 then (r, true) else raceCondLoop rs

/-- `Flow.RaceCond` (`flow.go:464-489`): value-and-error of the first
qualifying completion, `(false, nil)` if none. -/
def RaceCond {E : Type} (completions : List (Bool × Option (GoError E))) :
    Bool × Option (GoError E) :=
  if completions.length = 0 then (false, none)
  else (raceCondLoop completions).1

/-!
Typed `Parallel` variants (`Flow.ParallelString` `flow.go:192-215`,
`Flow.ParallelInt` `flow.go:285-308`, `Flow.ParallelBool` `flow.go:378-401`
and their `CancelOnError` versions): one generic fan-in loop over a result
pair `(item, err)`; an errored result contributes its error and drops its
item (`continue`), a nil-error result appends its item.
-/

/-- The typed parallel fan-in loop (e.g. `flow.go:207-213`): split the
completion-ordered results into collected items (of nil-error results) and
collected errors, both in arrival order. -/
def parallelTCollect {α E : Type} :
    List (α × Option (GoError E)) → List α × List (GoError E)
  | [] => ([], [])
  | (a, none) :: rs =>
    let acc := parallelTCollect rs
    (a :: acc.1, acc.2)
  | (_, some e) :: rs =>
    let acc := parallelTCollect rs
    (acc.1, e :: acc.2)

/-- A typed parallel variant (`Flow.ParallelString` etc.): nil slice and
nil error for zero tasks, else the collected items and `ErrorOrNil` of the
collected errors. -/
def parallelT {α E : Type} (completions : List (α × Option (GoError E))) :
    List α × Option (GoError E) :=
  if completions.length = 0 then ([], none)
  else
    let acc := parallelTCollect completions
    (acc.1, errorOrNil acc.2)

/-- A typed `Race` variant (`Flow.RaceString` `flow.go:255-274` etc.): the
type's zero value and nil for zero tasks, else the first completion's item
and error unchanged. -/
def raceT {α E : Type} (zero : α)
    (completions : List (α × Option (GoError E))) : α × Option (GoError E) :=
  match completions with
  | [] => (zero, none)
  | r :: _ => r

/-- `Flow.ParallelString` (`flow.go:192-215`). -/
def ParallelString {E : Type}
    (completions : List (String × Option (GoError E))) :=
  parallelT completions

/-- `Flow.ParallelInt` (`flow.go:285-308`). -/
def ParallelInt {E : Type}
    (completions : List (Int × Option (GoError E))) :=
  parallelT completions

/-- `Flow.ParallelBool` (`flow.go:378-401`). -/
def ParallelBool {E : Type}
    (completions : List (Bool × Option (GoError E))) :=
  parallelT completions

/-!
`LimitingExecutor` (executor file): `Start` launches a single control loop
owning a FIFO `queue` and a running counter `current`; the loop selects
among a finished job (`<-done`, decrement), a new submission
(`<-ingest`, append to queue; a closed ingest breaks the loop), and a
non-blocking default that dispatches `queue[0]` while `current < maxRunning`.
`Submit` sends on `p.ingest`; `Stop` closes `ingest` and sets it to nil,
guarded so a second `Stop` is a no-op.

The model is a transition system over one started executor.  Jobs are
identified by the `Nat` passed at submission.  `finish` models a dispatched
job completing its function together with the loop-side decrement of
`current` (collapsed into one event).  Go's `select` never takes the
`default` branch while another case is ready, and a closed `ingest` is
perpetually ready, so `dispatch` requires the ingest channel to be open;
sending on the nil `p.ingest` after `Stop` blocks forever, so `submit`
requires `ingestNil = false`.
-/

/-- State of one started `LimitingExecutor`. -/
structure ExecState where
  /-- The ingest channel is not closed. -/
  ingestOpen : Bool
  /-- `p.ingest` has been reset to nil by `Stop`. -/
  ingestNil : Bool
  /-- The control loop has not yet taken the `break Loop` branch. -/
  loopAlive : Bool
  /-- FIFO queue of pending job ids (`queue`). -/
  queue : List Nat
  /-- Loop counter of running jobs (`current`). -/
  running : Nat
  /-- Job ids handed to the inner executor, in dispatch order. -/
  dispatched : List Nat
  /-- Job ids accepted from `Submit`, in submission order. -/
  submitted : List Nat
  /-- Number of jobs whose function has completed. -/
  finished : Nat
deriving DecidableEq, Repr

/-- The state right after `Start` on a fresh `LimitingExecutor`. -/
def startedExec : ExecState :=
  { ingestOpen := true, ingestNil := false, loopAlive := true,
    queue := [], running := 0, dispatched := [], submitted := [],
    finished := 0 }

/-- `LimitingExecutor.Stop`: close `ingest` and set it to nil, unless a
previous `Stop` already did (the `p.ingest != nil` guard). -/
def stopExec (s : ExecState) : ExecState :=
  if s.ingestNil then s
  else { s with ingestOpen := false, ingestNil := true }

/-- One transition of a started `LimitingExecutor` with limit `L`. -/
inductive ExecStep (L : Nat) : ExecState → ExecState → Prop where
  /-- `Submit` hands job `j` to the loop, which appends it to the queue:
  needs a non-nil, open ingest channel and a live loop. -/
  | submit (s : ExecState) (j : Nat) :
      s.ingestNil = false → s.ingestOpen = true → s.loopAlive = true →
      ExecStep L s
        { s with queue := s.queue ++ [j], submitted := s.submitted ++ [j] }
  /-- A dispatched job's function completes; the loop decrements
  `current`. -/
  | finish (s : ExecState) :
      0 < s.running →
      ExecStep L s
        { s with running := s.running - 1, finished := s.finished + 1 }
  /-- The loop's default branch dispatches the queue head while under the
  limit; only reachable while no other select case is ready, hence only
  while the ingest channel is open and the loop alive. -/
  | dispatch (s : ExecState) (j : Nat) (q : List Nat) :
      s.loopAlive = true → s.ingestOpen = true →
      s.queue = j :: q → s.running < L →
      ExecStep L s
        { s with queue := q, running := s.running + 1,
                 dispatched := s.dispatched ++ [j] }
  /-- `Stop` (idempotent through its guard). -/
  | stop (s : ExecState) : ExecStep L s (stopExec s)
  /-- The loop receives from the closed ingest channel and breaks,
  abandoning whatever is still queued. -/
  | loopExit (s : ExecState) :
      s.loopAlive = true → s.ingestOpen = false →
      ExecStep L s { s with loopAlive := false }

/-- States a started executor with limit `L` can reach. -/
def ExecReachable (L : Nat) (s : ExecState) : Prop :=
  Relation.ReflTransGen (ExecStep L) startedExec s

/-- `Flow.RaceString` (`flow.go:255-274`). -/
def RaceString {E : Type}
    (completions : List (String × Option (GoError E))) :=
  raceT "" completions

/-- `Flow.RaceInt` (`flow.go:348-367`). -/
def RaceInt {E : Type}
    (completions : List (Int × Option (GoError E))) :=
  raceT 0 completions

/-- `Flow.RaceBool` (`flow.go:441-460`). -/
def RaceBool {E : Type}
    (completions : List (Bool × Option (GoError E))) :=
  raceT false completions

/-- The typed cancel-on-error run (`Flow.ParallelStringCancelOnError`
`flow.go:221-248` etc.): completion-ordered results of tasks that observe
the child signal state, which turns cancelled at the first non-nil
error. -/
def pcoeRunT {α E : Type} (c : Bool) :
    List (Bool → α × Option (GoError E)) → List (α × Option (GoError E))
  | [] => []
  | t :: ts => t c :: pcoeRunT (c || (t c).2.isSome) ts

/-- A typed `ParallelCancelOnError` variant: same fan-in item/error split
as `parallelT`, over the cancel-on-error run. -/
def parallelTCancelOnError {α E : Type}
    (tasks : List (Bool → α × Option (GoError E))) :
    List α × Option (GoError E) :=
  if tasks.length = 0 then ([], none)
  else
    let acc := parallelTCollect (pcoeRunT false tasks)
    (acc.1, errorOrNil acc.2)

theorem parallelTCollect_fst {α E : Type}
    (rs : List (α × Option (GoError E))) :
    (parallelTCollect rs).1
      = rs.filterMap (fun r => if r.2.isSome then none else some r.1) := by
  induction rs with
  | nil => rfl
  | cons r rs ih =>
    obtain ⟨a, e⟩ := r
    cases e <;> simp [parallelTCollect, ih]

theorem parallelTCollect_snd {α E : Type}
    (rs : List (α × Option (GoError E))) :
    (parallelTCollect rs).2 = rs.filterMap (fun r => r.2) := by
  induction rs with
  | nil => rfl
  | cons r rs ih =>
    obtain ⟨a, e⟩ := r
    cases e <;> simp [parallelTCollect, ih]

/-- C8: decomposing an aggregate error yields exactly the member errors
that were aggregated (identity preserved); building an aggregate from a
non-empty error list and decomposing it is the identity; a non-aggregate
error (nil or base) decomposes to the empty list. -/
theorem errors_decomposition {E : Type} :
    (∀ m : List (GoError E), Errors (some (GoError.multi m)) = m)
    ∧ (∀ m : List (GoError E), m ≠ [] → Errors (errorOrNil m) = m)
    ∧ Errors (E := E) none = []
    ∧ (∀ e : E, Errors (some (GoError.base e)) = []) := by
  refine ⟨fun m => rfl, fun m hm => ?_, rfl, fun e => rfl⟩
  have : m.length > 0 := List.length_pos.mpr hm
  simp [errorOrNil, this, Errors]

/-- C8 witness: a concrete two-member aggregate decomposes to its member
list. -/
theorem errors_decomposition_witness :
    Errors (errorOrNil [GoError.base 1, GoError.base 2])
      = [GoError.base (E := Nat) 1, GoError.base 2] :=
  errors_decomposition.2.1 _ (List.cons_ne_nil _ _)

/-- C9: every coordination operation called with zero tasks returns its
policy's identity result (nil error; zero value and nil for typed
variants), submits no job to the executor, and allocates no completion
channel. -/
theorem zeroTasks_identity {E : Type} :
    Parallel (E := E) [] = none
    ∧ ParallelCancelOnError (E := E) [] = none
    ∧ raceResult (E := E) [] = none
    ∧ raceTrace (E := E) [] = [RaceEvent.ret none]
    ∧ RaceCond (E := E) [] = (false, none)
    ∧ ParallelString (E := E) [] = ([], none)
    ∧ ParallelInt (E := E) [] = ([], none)
    ∧ ParallelBool (E := E) [] = ([], none)
    ∧ parallelTCancelOnError (α := String) (E := E) [] = ([], none)
    ∧ RaceString (E := E) [] = ("", none)
    ∧ RaceInt (E := E) [] = (0, none)
    ∧ RaceBool (E := E) [] = (false, none)
    ∧ (∀ ctxErr : Nat → Option (GoError E), Sequence ctxErr [] = none)
    ∧ runAllSubmitted 0 = []
    ∧ channelAllocated 0 = false := by
  exact ⟨rfl, rfl, rfl, rfl, rfl, rfl, rfl, rfl, rfl, rfl, rfl, rfl,
    fun _ => rfl, rfl, rfl⟩

/-- C10: a typed Parallel variant returns exactly the values produced by
the nil-error tasks, in completion order; a value alongside a non-nil
error is dropped, so the slice length equals the number of successful
tasks; likewise for the cancel-on-error variants over their runs. -/
theorem parallelT_successValues {α E : Type}
    (completions : List (α × Option (GoError E)))
    (tasks : List (Bool → α × Option (GoError E))) :
    (parallelT completions).1
      = completions.filterMap (fun r => if r.2.isSome then none else some r.1)
    ∧ (parallelT completions).1.length
      = (completions.filter (fun r => r.2.isNone)).length
    ∧ (parallelTCancelOnError tasks).1
      = (pcoeRunT false tasks).filterMap
          (fun r => if r.2.isSome then none else some r.1) := by
  have hfst : (parallelT completions).1
      = completions.filterMap (fun r => if r.2.isSome then none else some r.1) := by
    unfold parallelT
    by_cases h : completions.length = 0
    · have : completions = [] := List.length_eq_zero.mp h
      subst this
      simp
    · simp only [h, if_neg h]
      exact parallelTCollect_fst completions
  have hlen : ∀ rs : List (α × Option (GoError E)),
      (rs.filterMap (fun r => if r.2.isSome then none else some r.1)).length
        = (rs.filter (fun r => r.2.isNone)).length := by
    intro rs
    induction rs with
    | nil => rfl
    | cons r rs ih =>
      obtain ⟨a, e⟩ := r
      cases e <;> simp [ih]
  refine ⟨hfst, ?_, ?_⟩
  · rw [hfst]
    exact hlen completions
  · unfold parallelTCancelOnError
    by_cases h : tasks.length = 0
    · have : tasks = [] := List.length_eq_zero.mp h
      subst this
      simp [pcoeRunT]
    · simp only [h, if_neg h]
      exact parallelTCollect_fst _

theorem sequenceFrom_all_ok {E : Type} (ctxErr : Nat → Option (GoError E)) :
    ∀ (i : Nat) (ts : List (Option (GoError E))), (∀ t ∈ ts, t = none) →
      (∀ j < ts.length, ctxErr (i + j) = none) →
      SequenceFrom ctxErr i ts = none
        ∧ seqInvokedFrom ctxErr i ts = ts.length := by
  intro i ts
  induction ts generalizing i with
  | nil => intro _ _; exact ⟨rfl, rfl⟩
  | cons t ts ih =>
    intro hall hc
    have ht : t = none := hall t (List.mem_cons_self t ts)
    subst ht
    have hc0 : ctxErr i = none := by
      have := hc 0 (by simp only [List.length_cons]; omega)
      simpa using this
    have hcs : ∀ j < ts.length, ctxErr (i + 1 + j) = none := by
      intro j hj
      have := hc (j + 1) (by simp only [List.length_cons]; omega)
      rw [show i + (j + 1) = i + 1 + j by omega] at this
      exact this
    have hrest := ih (i + 1) (fun u hu => hall u (List.mem_cons_of_mem _ hu)) hcs
    simp [SequenceFrom, seqInvokedFrom, hc0, hrest.1, hrest.2, Nat.add_comm]

theorem sequenceFrom_first_error {E : Type} (ctxErr : Nat → Option (GoError E)) :
    ∀ (k i : Nat) (ts : List (Option (GoError E))) (e : GoError E),
      ts.get? k = some (some e) → (∀ j < k, ts.get? j = some none) →
      (∀ j < k, ctxErr (i + j) = none) →
      SequenceFrom ctxErr i ts = some e
        ∧ seqInvokedFrom ctxErr i ts = k + 1 := by
  intro k
  induction k with
  | zero =>
    intro i ts e hk _ _
    match ts, hk with
    | some e :: ts, rfl => exact ⟨rfl, rfl⟩
  | succ k ih =>
    intro i ts e hk hpre hc
    match ts with
    | [] => simp at hk
    | t :: ts =>
      have h0 : t = none := by
        have := hpre 0 (Nat.succ_pos k)
        simpa using this
      subst h0
      have hk2 : ts.get? k = some (some e) := by simpa using hk
      have hpre2 : ∀ j < k, ts.get? j = some none := by
        intro j hj
        have := hpre (j + 1) (Nat.succ_lt_succ hj)
        simpa using this
      have hc0 : ctxErr i = none := by
        have := hc 0 (Nat.succ_pos k)
        simpa using this
      have hc2 : ∀ j < k, ctxErr (i + 1 + j) = none := by
        intro j hj
        have := hc (j + 1) (Nat.succ_lt_succ hj)
        rw [show i + (j + 1) = i + 1 + j by omega] at this
        exact this
      have hrest := ih (i + 1) ts e hk2 hpre2 hc2
      refine ⟨?_, ?_⟩
      · simp [SequenceFrom, hc0, hrest.1]
      · simp [seqInvokedFrom, hc0, hrest.2, Nat.add_comm]

theorem sequenceFrom_cancelled_at {E : Type} (ctxErr : Nat → Option (GoError E)) :
    ∀ (k i : Nat) (ts : List (Option (GoError E))) (ce : GoError E),
      (∀ j ≤ k, ts.get? j = some none) → (∀ j < k, ctxErr (i + j) = none) →
      ctxErr (i + k) = some ce →
      SequenceFrom ctxErr i ts = some ce
        ∧ seqInvokedFrom ctxErr i ts = k + 1 := by
  intro k
  induction k with
  | zero =>
    intro i ts ce hall _ hck
    match ts with
    | [] =>
      have h0 := hall 0 (Nat.le_refl 0)
      simp at h0
    | t :: ts =>
      have ht : t = none := by simpa using hall 0 (Nat.le_refl 0)
      subst ht
      have hce : ctxErr i = some ce := by simpa using hck
      exact ⟨by simp [SequenceFrom, hce], by simp [seqInvokedFrom, hce]⟩
  | succ k ih =>
    intro i ts ce hall hc hck
    match ts with
    | [] =>
      have h0 := hall 0 (Nat.zero_le _)
      simp at h0
    | t :: ts =>
      have ht : t = none := by simpa using hall 0 (Nat.zero_le _)
      subst ht
      have hall2 : ∀ j ≤ k, ts.get? j = some none := by
        intro j hj
        have := hall (j + 1) (Nat.succ_le_succ hj)
        simpa using this
      have hc0 : ctxErr i = none := by
        have := hc 0 (Nat.succ_pos k)
        simpa using this
      have hc2 : ∀ j < k, ctxErr (i + 1 + j) = none := by
        intro j hj
        have := hc (j + 1) (Nat.succ_lt_succ hj)
        rw [show i + (j + 1) = i + 1 + j by omega] at this
        exact this
      have hck2 : ctxErr (i + 1 + k) = some ce := by
        rw [show i + 1 + k = i + (k + 1) by omega]
        exact hck
      have hrest := ih (i + 1) ts ce hall2 hc2 hck2
      refine ⟨?_, ?_⟩
      · simp [SequenceFrom, hc0, hrest.1]
      · simp [seqInvokedFrom, hc0, hrest.2, Nat.add_comm]

/-- C2: `Sequence` runs tasks strictly in submission order, checking the
cancellation signal after each task; (a) with no errors and no check
cancelled, every task is invoked and nil returned; (b) the first task
error — at any position `k`, with the signal not yet cancelled at the
earlier checks — stops the run at once, later tasks are not invoked, and
that exact error is returned unchanged; (c) if the signal is first
cancelled at the post-task check `k` (all tasks up to `k` returned nil),
the run stops there, invoking exactly `k + 1` tasks, and the signal's
error is returned; (d) a signal already cancelled when the call begins
still lets the first task run, only one task is invoked, and the task's
own error — else the signal's error — is returned at the first post-task
check. -/
theorem sequence_correct {E : Type} (ctxErr : Nat → Option (GoError E))
    (tasks : List (Option (GoError E))) :
    ((∀ t ∈ tasks, t = none) → (∀ j < tasks.length, ctxErr j = none) →
        Sequence ctxErr tasks = none ∧ seqInvoked ctxErr tasks = tasks.length)
    ∧ (∀ k e, tasks.get? k = some (some e) →
        (∀ j < k, tasks.get? j = some none) → (∀ j < k, ctxErr j = none) →
        Sequence ctxErr tasks = some e ∧ seqInvoked ctxErr tasks = k + 1)
    ∧ (∀ k ce, (∀ j ≤ k, tasks.get? j = some none) →
        (∀ j < k, ctxErr j = none) → ctxErr k = some ce →
        Sequence ctxErr tasks = some ce ∧ seqInvoked ctxErr tasks = k + 1)
    ∧ (∀ ce t ts, ctxErr 0 = some ce → tasks = t :: ts →
        seqInvoked ctxErr tasks = 1
          ∧ Sequence ctxErr tasks = some (t.getD ce)) := by
  refine ⟨?_, ?_, ?_, ?_⟩
  · intro hall hc
    exact sequenceFrom_all_ok ctxErr 0 tasks hall
      (fun j hj => by rw [Nat.zero_add]; exact hc j hj)
  · intro k e hk hpre hc
    exact sequenceFrom_first_error ctxErr k 0 tasks e hk hpre
      (fun j hj => by rw [Nat.zero_add]; exact hc j hj)
  · intro k ce hall hc hck
    exact sequenceFrom_cancelled_at ctxErr k 0 tasks ce hall
      (fun j hj => by rw [Nat.zero_add]; exact hc j hj)
      (by rw [Nat.zero_add]; exact hck)
  · intro ce t ts hce hts
    subst hts
    cases t with
    | none => simp [seqInvoked, seqInvokedFrom, Sequence, SequenceFrom, hce]
    | some e => simp [seqInvoked, seqInvokedFrom, Sequence, SequenceFrom]

/-- C2 witness: with no cancellation and tasks `[ok, error 7, ok]` the
sequence returns error 7 unchanged after invoking exactly two tasks; with
three ok tasks and the signal first cancelled at the second post-task
check, it returns the signal's error after invoking exactly two tasks. -/
theorem sequence_correct_witness :
    (Sequence (fun _ => none) [none, some (GoError.base 7), none]
        = some (GoError.base (E := Nat) 7)
      ∧ seqInvoked (fun _ => none) [none, some (GoError.base 7), none] = 2)
    ∧ (Sequence (fun k => if k = 1 then some (GoError.base 9) else none)
          [none, none, none] = some (GoError.base (E := Nat) 9)
      ∧ seqInvoked (fun k => if k = 1 then some (GoError.base 9) else none)
          [none, none, none] = 2) := by
  constructor
  · exact (sequence_correct (fun _ => none)
        [none, some (GoError.base 7), none]).2.1 1 (GoError.base 7) rfl
      (fun j hj => by
        match j with
        | 0 => rfl
        | j + 1 => omega)
      (fun j hj => rfl)
  · exact (sequence_correct (fun k => if k = 1 then some (GoError.base 9) else none)
        [none, none, none]).2.2.1 1 (GoError.base 9)
      (fun j hj => by
        match j with
        | 0 => rfl
        | 1 => rfl
        | j + 2 => omega)
      (fun j hj => by
        match j with
        | 0 => rfl
        | j + 1 => omega)
      rfl

theorem raceCondLoop_all_false {E : Type} :
    ∀ completions : List (Bool × Option (GoError E)),
      (∀ r ∈ completions, r = (false, none)) →
      raceCondLoop completions = ((false, none), false) := by
  intro completions
  induction completions with
  | nil => intro _; rfl
  | cons r rs ih =>
    intro hall
    have hr : r = (false, none) := hall r (List.mem_cons_self r rs)
    subst hr
    simpa [raceCondLoop] using ih (fun u hu => hall u (List.mem_cons_of_mem _ hu))

theorem raceCondLoop_first_qualifying {E : Type} :
    ∀ (k : Nat) (completions : List (Bool × Option (GoError E)))
      (r : Bool × Option (GoError E)),
      completions.get? k = some r → (r.2.isSome = true ∨ r.1 = true) →
      (∀ j rj, j < k → completions.get? j = some rj → rj = (false, none)) →
      raceCondLoop completions = (r, true) := by
  intro k
  induction k with
  | zero =>
    intro completions r hk hq _
    match completions, hk with
    | r :: rs, rfl =>
      have : (r.2.isSome || r.1) = true := by
        rcases hq with h | h
        · simp [h]
        · simp [h]
      simp [raceCondLoop, this]
  | succ k ih =>
    intro completions r hk hq hpre
    match completions with
    | [] => simp at hk
    | c :: rs =>
      have hc : c = (false, none) := by
        have := hpre 0 c (Nat.succ_pos k) (by simp)
        exact this
      subst hc
      have hk2 : rs.get? k = some r := by simpa using hk
      have hpre2 : ∀ j rj, j < k → rs.get? j = some rj → rj = (false, none) := by
        intro j rj hj hget
        exact hpre (j + 1) rj (Nat.succ_lt_succ hj) (by simpa using hget)
      simpa [raceCondLoop] using ih rs r hk2 hq hpre2

/-- C5: `RaceCond` returns the result of the first completion with a
non-nil error or a true value and the loop cancels the child signal at
that moment; `(false, nil)` completions are discarded without triggering
cancellation; if every completion is `(false, nil)` the zero result
`(false, nil)` is returned and the loop never cancels. -/
theorem raceCond_correct {E : Type}
    (completions : List (Bool × Option (GoError E))) :
    ((∀ r ∈ completions, r = (false, none)) →
        RaceCond completions = (false, none)
          ∧ (raceCondLoop completions).2 = false)
    ∧ (∀ k r, completions.get? k = some r →
        (r.2.isSome = true ∨ r.1 = true) →
        (∀ j rj, j < k → completions.get? j = some rj → rj = (false, none)) →
        RaceCond completions = r ∧ (raceCondLoop completions).2 = true) := by
  constructor
  · intro hall
    have h := raceCondLoop_all_false completions hall
    unfold RaceCond
    by_cases hlen : completions.length = 0
    · simp [hlen, h]
    · simp [hlen, h]
  · intro k r hk hq hpre
    have h := raceCondLoop_first_qualifying k completions r hk hq hpre
    have hne : completions.length ≠ 0 := by
      intro h0
      have : completions = [] := List.length_eq_zero.mp h0
      subst this
      simp at hk
    unfold RaceCond
    simp [hne, h]

/-- C5 witness: with completions `[(false, nil), (true, nil)]`, `RaceCond`
returns `(true, nil)` and the loop cancelled; the first completion was
discarded without cancelling. -/
theorem raceCond_correct_witness :
    RaceCond [((false : Bool), (none : Option (GoError Nat))), (true, none)]
        = (true, none)
      ∧ (raceCondLoop [((false : Bool), (none : Option (GoError Nat))),
          (true, none)]).2 = true :=
  (raceCond_correct [((false : Bool), (none : Option (GoError Nat))),
      (true, none)]).2 1 (true, none) rfl (Or.inr rfl)
    (fun j rj hj hget => by
      match j, hj with
      | 0, _ =>
        simp at hget
        simp [hget])

/-- C1: with `N ≥ 1` tasks, the fan-out submits one job per task index
(each task invoked exactly once, regardless of errors in siblings, which
is also why the received completions are a permutation of the task
results); `Parallel` returns nil iff no task returned a non-nil error;
otherwise the returned aggregate decomposes to exactly the non-nil task
errors as a set (completion order); and the result is never a single bare
error, even when exactly one task errors. -/
theorem parallel_correct {E : Type}
    (tasks completions : List (Option (GoError E)))
    (hperm : completions.Perm tasks) (hne : tasks ≠ []) :
    (∀ i < tasks.length, (runAllSubmitted tasks.length).count i = 1)
    ∧ (Parallel completions = none ↔ ∀ t ∈ tasks, t = none)
    ∧ (Errors (Parallel completions)).Perm (tasks.filterMap id)
    ∧ ∀ e : E, Parallel completions ≠ some (GoError.base e) := by
  have hlen : completions.length = tasks.length := hperm.length_eq
  have hlen0 : tasks.length ≠ 0 := by
    intro h
    exact hne (List.length_eq_zero.mp h)
  have hclen0 : ¬completions.length = 0 := by omega
  have hpar : Parallel completions
      = errorOrNil (completions.filterMap id) := by
    unfold Parallel
    rw [if_neg hclen0, collectErrors_eq_filterMap]
  have hpermF : (completions.filterMap id).Perm (tasks.filterMap id) :=
    hperm.filterMap id
  refine ⟨?_, ?_, ?_, ?_⟩
  · intro i hi
    unfold runAllSubmitted
    rw [if_neg hlen0]
    exact List.count_eq_one_of_mem (List.nodup_range _)
      (List.mem_range.mpr hi)
  · rw [hpar]
    unfold errorOrNil
    constructor
    · intro h t ht
      by_cases hl : (completions.filterMap id).length > 0
      · rw [if_pos hl] at h
        exact absurd h (by simp)
      · have h0 : completions.filterMap id = [] := by
          have : (completions.filterMap id).length = 0 := by omega
          exact List.length_eq_zero.mp this
        have hall := List.filterMap_eq_nil_iff.mp h0
        exact hall t ((hperm.mem_iff).mpr ht)
    · intro hall
      have hnil : completions.filterMap id = [] := by
        apply List.filterMap_eq_nil_iff.mpr
        intro t ht
        exact hall t ((hperm.mem_iff).mp ht)
      simp [hnil]
  · rw [hpar]
    unfold errorOrNil
    by_cases hnil : (completions.filterMap id).length > 0
    · simp only [if_pos hnil, Errors]
      exact hpermF
    · have h0 : completions.filterMap id = [] := by
        have : (completions.filterMap id).length = 0 := by omega
        exact List.length_eq_zero.mp this
      have h1 : tasks.filterMap id = [] := by
        have h2 := hpermF
        rw [h0] at h2
        exact h2.symm.eq_nil
      simp [if_neg hnil, h0, h1, Errors]
  · intro e
    rw [hpar]
    unfold errorOrNil
    by_cases hnil : (completions.filterMap id).length > 0
    · simp [if_pos hnil]
    · simp [if_neg hnil]

/-- C1 witness: two tasks, one erroring: the aggregate decomposes to that
single error, and the result is not the bare error. -/
theorem parallel_correct_witness :
    (Errors (Parallel [some (GoError.base 1), none])).Perm
        [GoError.base (E := Nat) 1]
      ∧ Parallel [some (GoError.base 1), none]
          ≠ some (GoError.base (E := Nat) 1) := by
  have h := parallel_correct [some (GoError.base (E := Nat) 1), none]
    [some (GoError.base 1), none] (List.Perm.refl _) (List.cons_ne_nil _ _)
  exact ⟨h.2.2.1, h.2.2.2 1⟩

theorem pcoeRun_length {E : Type} (c : Bool)
    (tasks : List (Bool → Option (GoError E))) :
    (pcoeRun c tasks).length = tasks.length := by
  induction tasks generalizing c with
  | nil => rfl
  | cons t ts ih => simp [pcoeRun, ih]

theorem pcoeRun_true_flags {E : Type}
    (tasks : List (Bool → Option (GoError E))) :
    ∀ p ∈ pcoeRun true tasks, p.1 = true := by
  induction tasks with
  | nil => intro p hp; simp [pcoeRun] at hp
  | cons t ts ih =>
    intro p hp
    simp only [pcoeRun, Bool.true_or, List.mem_cons] at hp
    rcases hp with h | h
    · rw [h]
    · exact ih p h

theorem pcoeRun_error_cancels {E : Type} :
    ∀ (tasks : List (Bool → Option (GoError E))) (c : Bool) (i j : Nat)
      (p q : Bool × Option (GoError E)),
      i < j → (pcoeRun c tasks).get? i = some p → p.2.isSome = true →
      (pcoeRun c tasks).get? j = some q → q.1 = true := by
  intro tasks
  induction tasks with
  | nil =>
    intro c i j p q _ hp _ _
    simp [pcoeRun] at hp
  | cons t ts ih =>
    intro c i j p q hij hp hps hq
    match i, j with
    | 0, j + 1 =>
      have hp0 : (c, t c) = p := by simpa [pcoeRun] using hp
      have hsome : (t c).isSome = true := by
        rw [← hp0] at hps
        exact hps
      have hq2 : (pcoeRun true ts).get? j = some q := by
        simpa [pcoeRun, hsome] using hq
      exact pcoeRun_true_flags ts q (List.get?_mem hq2)
    | i + 1, j + 1 =>
      have hp2 : (pcoeRun (c || (t c).isSome) ts).get? i = some p := by
        simpa [pcoeRun] using hp
      have hq2 : (pcoeRun (c || (t c).isSome) ts).get? j = some q := by
        simpa [pcoeRun] using hq
      exact ih (c || (t c).isSome) i j p q (by omega) hp2 hps hq2

/-- C3: `ParallelCancelOnError` consumes all `N` completions (it waits for
every task); the child signal is cancelled as soon as any task reports a
non-nil error (every later completion observes the cancelled signal), and
repeated cancellations are no-ops (once cancelled, every later completion
still observes cancelled); the returned aggregate decomposes to exactly
the non-nil result errors, including cancellation errors, and is nil iff
no result erred.  In particular task lists of shape
`[errors immediately, blocks until cancelled, blocks until cancelled]`
produce an aggregate with exactly the three errors. -/
theorem parallelCancelOnError_correct {E : Type}
    (tasks : List (Bool → Option (GoError E))) :
    (pcoeRun false tasks).length = tasks.length
    ∧ (∀ p ∈ pcoeRun true tasks, p.1 = true)
    ∧ (∀ i j p q, i < j → (pcoeRun false tasks).get? i = some p →
        p.2.isSome = true → (pcoeRun false tasks).get? j = some q →
        q.1 = true)
    ∧ (ParallelCancelOnError tasks = none ↔
        ∀ p ∈ pcoeRun false tasks, p.2 = none)
    ∧ Errors (ParallelCancelOnError tasks)
        = (pcoeRun false tasks).filterMap (fun p => p.2)
    ∧ (∀ a b : GoError E,
        Errors (ParallelCancelOnError
          [fun _ => some a,
           fun c => if c then some b else none,
           fun c => if c then some b else none]) = [a, b, b]) := by
  refine ⟨pcoeRun_length false tasks, pcoeRun_true_flags tasks,
    fun i j p q hij hp hps hq =>
      pcoeRun_error_cancels tasks false i j p q hij hp hps hq, ?_, ?_,
    fun a b => rfl⟩
  · unfold ParallelCancelOnError
    by_cases hlen : tasks.length = 0
    · have : tasks = [] := List.length_eq_zero.mp hlen
      subst this
      simp [pcoeRun]
    · rw [if_neg hlen]
      unfold errorOrNil
      constructor
      · intro h p hp
        by_cases hl : ((pcoeRun false tasks).filterMap (fun p => p.2)).length > 0
        · rw [if_pos hl] at h
          exact absurd h (by simp)
        · have h0 : (pcoeRun false tasks).filterMap (fun p => p.2) = [] := by
            have : ((pcoeRun false tasks).filterMap (fun p => p.2)).length = 0 := by
              omega
            exact List.length_eq_zero.mp this
          exact List.filterMap_eq_nil_iff.mp h0 p hp
      · intro hall
        have h0 : (pcoeRun false tasks).filterMap (fun p => p.2) = [] :=
          List.filterMap_eq_nil_iff.mpr hall
        simp [h0]
  · unfold ParallelCancelOnError
    by_cases hlen : tasks.length = 0
    · have : tasks = [] := List.length_eq_zero.mp hlen
      subst this
      simp [pcoeRun, Errors]
    · rw [if_neg hlen]
      unfold errorOrNil
      by_cases hl : ((pcoeRun false tasks).filterMap (fun p => p.2)).length > 0
      · simp only [if_pos hl, Errors]
      · have h0 : (pcoeRun false tasks).filterMap (fun p => p.2) = [] := by
          have : ((pcoeRun false tasks).filterMap (fun p => p.2)).length = 0 := by
            omega
          exact List.length_eq_zero.mp this
        simp [if_neg hl, h0, Errors]

/-- C3 witness: task 1 errors immediately, tasks 2 and 3 return the
cancellation error once they observe the cancelled signal; the aggregate
has exactly those three members, and the completion after the error
observed the cancelled signal. -/
theorem parallelCancelOnError_correct_witness :
    Errors (ParallelCancelOnError
        [fun _ => some (GoError.base (E := Nat) 1),
         fun c => if c then some (GoError.base 0) else none,
         fun c => if c then some (GoError.base 0) else none])
      = [GoError.base 1, GoError.base 0, GoError.base 0]
    ∧ ((true : Bool), some (GoError.base (E := Nat) 0)).1 = true := by
  constructor
  · exact (parallelCancelOnError_correct
      [fun _ => some (GoError.base (E := Nat) 1),
       fun c => if c then some (GoError.base 0) else none,
       fun c => if c then some (GoError.base 0) else none]).2.2.2.2.2
      (GoError.base 1) (GoError.base 0)
  · exact (parallelCancelOnError_correct
      [fun _ => some (GoError.base (E := Nat) 1),
       fun c => if c then some (GoError.base 0) else none,
       fun c => if c then some (GoError.base 0) else none]).2.2.1
      0 2 (false, some (GoError.base 1)) (true, some (GoError.base 0))
      (by omega) rfl rfl rfl

theorem recvValues_drain {E : Type} (rs : List (Option (GoError E)))
    (x : Option (GoError E)) :
    recvValues (rs.map RaceEvent.recv ++ [RaceEvent.ret x]) = rs := by
  induction rs with
  | nil => rfl
  | cons r rs ih => simp [recvValues, ih]

theorem recvCountBeforeRet_drain {E : Type} (rs : List (Option (GoError E)))
    (x : Option (GoError E)) :
    recvCountBeforeRet (rs.map RaceEvent.recv ++ [RaceEvent.ret x])
      = rs.length := by
  induction rs with
  | nil => rfl
  | cons r rs ih => simp [recvCountBeforeRet, ih]

/-- C4, amended: `Race` returns the first received result as-is and
cancels the child signal immediately after that first receive, regardless
of success or failure; but the remaining results are drained from the
completion channel on the calling goroutine BEFORE the call returns (the
return event is last, after every loser's receive), so the call waits for
the losing tasks; no result is leaked: the receives cover all
completions. -/
theorem race_correct {E : Type} (r : Option (GoError E))
    (rs : List (Option (GoError E))) :
    raceResult (r :: rs) = r
    ∧ (raceTrace (r :: rs)).get? 0 = some (RaceEvent.recv r)
    ∧ (raceTrace (r :: rs)).get? 1 = some (RaceEvent.cancelChild)
    ∧ recvValues (raceTrace (r :: rs)) = r :: rs
    ∧ (raceTrace (r :: rs)).getLast? = some (RaceEvent.ret r)
    ∧ recvCountBeforeRet (raceTrace (r :: rs)) = 1 + rs.length := by
  refine ⟨rfl, rfl, rfl, ?_, ?_, ?_⟩
  · simp [raceTrace, recvValues, recvValues_drain]
  · have hsplit : raceTrace (r :: rs)
        = (RaceEvent.recv r :: RaceEvent.cancelChild :: rs.map RaceEvent.recv)
            ++ [RaceEvent.ret r] := by
      simp [raceTrace]
    rw [hsplit, List.getLast?_concat]
  · simp [raceTrace, recvCountBeforeRet, recvCountBeforeRet_drain,
      Nat.add_comm]

/-- C4 counterexample: with two tasks both completing with nil, the code's
`Race` performs two receives before its return event (it drains the loser
synchronously and waits for it), whereas the claimed
background-thread drain would perform exactly one; the code's event
sequence differs from the claimed one. -/
theorem race_backgroundDrain_counterexample :
    recvCountBeforeRet (raceTrace [(none : Option (GoError Nat)), none]) = 2
    ∧ recvCountBeforeRet
        (raceTraceSpec [(none : Option (GoError Nat)), none]) = 1
    ∧ raceTrace [(none : Option (GoError Nat)), none]
        ≠ raceTraceSpec [(none : Option (GoError Nat)), none] := by
  refine ⟨rfl, rfl, ?_⟩
  intro h
  simp [raceTrace, raceTraceSpec] at h

/-- C6: in every reachable state of a started `LimitingExecutor` with
limit `L`, the running counter never exceeds `L`; jobs are dispatched
strictly in FIFO submission order, and a queued job is never dropped or
reordered (the dispatched list followed by the queue is exactly the
submission list); with `L = 0` nothing is ever dispatched or running and
the queue holds every submission. -/
theorem limitingExecutor_invariant (L : Nat) (s : ExecState)
    (h : ExecReachable L s) :
    s.running ≤ L
    ∧ s.dispatched ++ s.queue = s.submitted
    ∧ (L = 0 → s.running = 0 ∧ s.dispatched = []
        ∧ s.queue = s.submitted) := by
  induction h with
  | refl => exact ⟨Nat.zero_le L, rfl, fun _ => ⟨rfl, rfl, rfl⟩⟩
  | tail hab hbc ih =>
    obtain ⟨ih1, ih2, ih3⟩ := ih
    rename_i b c
    cases hbc with
    | submit j h1 h2 h3 =>
      dsimp only
      refine ⟨ih1, ?_, fun h0 => ?_⟩
      · rw [← List.append_assoc, ih2]
      · obtain ⟨hr, hd, hq⟩ := ih3 h0
        exact ⟨hr, hd, by rw [hq]⟩
    | finish hb =>
      dsimp only
      refine ⟨by omega, ih2, fun h0 => ?_⟩
      obtain ⟨hr, hd, hq⟩ := ih3 h0
      exact ⟨by omega, hd, hq⟩
    | dispatch j q h1 h2 h3 h4 =>
      dsimp only
      refine ⟨by omega, ?_, fun h0 => ?_⟩
      · rw [List.append_assoc]
        rw [h3] at ih2
        simpa using ih2
      · omega
    | stop =>
      by_cases hnil : b.ingestNil = true
      · simp only [stopExec, if_pos hnil]
        exact ⟨ih1, ih2, ih3⟩
      · simp only [stopExec, if_neg hnil]
        exact ⟨ih1, ih2, ih3⟩
    | loopExit h1 h2 =>
      exact ⟨ih1, ih2, ih3⟩

/-- C6 witness: with limit 2, after submitting jobs 5 and 7 and one
dispatch, the reached state has one running job (≤ 2) and the dispatched
list followed by the queue is the submission order. -/
theorem limitingExecutor_invariant_witness :
    (⟨true, false, true, [7], 1, [5], [5, 7], 0⟩ : ExecState).running ≤ 2
    ∧ (⟨true, false, true, [7], 1, [5], [5, 7], 0⟩ : ExecState).dispatched
          ++ (⟨true, false, true, [7], 1, [5], [5, 7], 0⟩ : ExecState).queue
        = (⟨true, false, true, [7], 1, [5], [5, 7], 0⟩ : ExecState).submitted
    ∧ ((2 : Nat) = 0 →
        (⟨true, false, true, [7], 1, [5], [5, 7], 0⟩ : ExecState).running = 0
        ∧ (⟨true, false, true, [7], 1, [5], [5, 7], 0⟩ : ExecState).dispatched
            = []
        ∧ (⟨true, false, true, [7], 1, [5], [5, 7], 0⟩ : ExecState).queue
            = (⟨true, false, true, [7], 1, [5], [5, 7], 0⟩
                : ExecState).submitted) := by
  have h1 := ExecStep.submit (L := 2) startedExec 5 rfl rfl rfl
  have h2 := ExecStep.submit (L := 2)
    ⟨true, false, true, [5], 0, [], [5], 0⟩ 7 rfl rfl rfl
  have h3 := ExecStep.dispatch (L := 2)
    ⟨true, false, true, [5, 7], 0, [], [5, 7], 0⟩ 5 [7] rfl rfl rfl
    (by decide)
  exact limitingExecutor_invariant 2 _
    (Relation.ReflTransGen.tail
      (Relation.ReflTransGen.tail
        (Relation.ReflTransGen.tail Relation.ReflTransGen.refl h1) h2) h3)

theorem execClosed_no_dispatch {L : Nat} {s t : ExecState}
    (h : Relation.ReflTransGen (ExecStep L) s t)
    (hopen : s.ingestOpen = false) :
    t.ingestOpen = false ∧ t.dispatched = s.dispatched := by
  induction h with
  | refl => exact ⟨hopen, rfl⟩
  | tail hab hbc ih =>
    obtain ⟨ih1, ih2⟩ := ih
    rename_i b c
    cases hbc with
    | submit j h1 h2 h3 => rw [ih1] at h2; simp at h2
    | finish hb => exact ⟨ih1, ih2⟩
    | dispatch j q h1 h2 h3 h4 => rw [ih1] at h2; simp at h2
    | stop =>
      by_cases hnil : b.ingestNil = true
      · simp only [stopExec, if_pos hnil]
        exact ⟨ih1, ih2⟩
      · simp only [stopExec, if_neg hnil]
        exact ⟨trivial, ih2⟩
    | loopExit h1 h2 => exact ⟨ih1, ih2⟩

theorem execNil_no_submit {L : Nat} {s t : ExecState}
    (h : Relation.ReflTransGen (ExecStep L) s t)
    (hnil : s.ingestNil = true) :
    t.ingestNil = true ∧ t.submitted = s.submitted := by
  induction h with
  | refl => exact ⟨hnil, rfl⟩
  | tail hab hbc ih =>
    obtain ⟨ih1, ih2⟩ := ih
    rename_i b c
    cases hbc with
    | submit j h1 h2 h3 => rw [ih1] at h1; simp at h1
    | finish hb => exact ⟨ih1, ih2⟩
    | dispatch j q h1 h2 h3 h4 => exact ⟨ih1, ih2⟩
    | stop =>
      by_cases hn : b.ingestNil = true
      · simp only [stopExec, if_pos hn]
        exact ⟨ih1, ih2⟩
      · simp only [stopExec, if_neg hn]
        exact ⟨trivial, ih2⟩
    | loopExit h1 h2 => exact ⟨ih1, ih2⟩

/-- A state reached by submitting job 0, stopping, and the control loop
then observing the closed ingest channel and breaking: job 0 is still
queued, nothing was dispatched. -/
def abandonedState : ExecState :=
  ⟨false, true, false, [0], 0, [], [0], 0⟩

/-- C7 counterexample: with limit 1, the state that submits job 0, calls
`Stop`, and lets the loop observe the closed channel is reachable; job 0
was accepted (submitted), is still queued, and in every continuation of
the execution it is never dispatched — a job queued at the time of
`Stop` does not run to completion, contrary to the claim. -/
theorem limitingExecutor_stop_counterexample :
    ExecReachable 1 abandonedState
    ∧ abandonedState.submitted = [0]
    ∧ abandonedState.dispatched = []
    ∧ (∀ t : ExecState,
        Relation.ReflTransGen (ExecStep 1) abandonedState t →
        t.dispatched = []) := by
  refine ⟨?_, rfl, rfl, ?_⟩
  · have h1 := ExecStep.submit (L := 1) startedExec 0 rfl rfl rfl
    have h2 := ExecStep.stop (L := 1)
      ⟨true, false, true, [0], 0, [], [0], 0⟩
    have h3 := ExecStep.loopExit (L := 1)
      ⟨false, true, true, [0], 0, [], [0], 0⟩ rfl rfl
    exact Relation.ReflTransGen.tail
      (Relation.ReflTransGen.tail
        (Relation.ReflTransGen.tail Relation.ReflTransGen.refl h1) h2) h3
  · intro t ht
    exact (execClosed_no_dispatch ht rfl).2

/-- C7, amended: `Stop` is idempotent — a second `Stop` is a no-op (the
`p.ingest != nil` guard prevents a double close and a panic); jobs already
dispatched still complete (the `finish` transition stays enabled in any
state, stopped or not); but a `Submit` after `Stop` blocks forever rather
than failing fast — it is never accepted, so the submitted list never
grows — and jobs still queued when the loop observes the closed channel
are abandoned, never dispatched. -/
theorem limitingExecutor_stop_correct (L : Nat) (s t : ExecState) :
    stopExec (stopExec s) = stopExec s
    ∧ (s.ingestNil = true → stopExec s = s)
    ∧ (stopExec s).ingestNil = true
    ∧ (0 < s.running → ExecStep L s
        { s with running := s.running - 1, finished := s.finished + 1 })
    ∧ (s.ingestNil = true →
        Relation.ReflTransGen (ExecStep L) s t →
        t.ingestNil = true ∧ t.submitted = s.submitted)
    ∧ (s.ingestOpen = false →
        Relation.ReflTransGen (ExecStep L) s t →
        t.dispatched = s.dispatched) := by
  refine ⟨?_, ?_, ?_, ExecStep.finish s, ?_, ?_⟩
  · by_cases hnil : s.ingestNil = true
    · simp [stopExec, hnil]
    · simp [stopExec, hnil]
  · intro hnil
    simp [stopExec, hnil]
  · by_cases hnil : s.ingestNil = true
    · simp only [stopExec, if_pos hnil]
      exact hnil
    · simp [stopExec, hnil]
  · intro hnil h
    exact execNil_no_submit h hnil
  · intro hopen h
    exact (execClosed_no_dispatch h hopen).2

/-- C7 amended witness: at a concrete stopped state with one job still
running, a second `Stop` is a no-op, the running job can still finish,
and no submission is ever accepted in any continuation. -/
theorem limitingExecutor_stop_correct_witness :
    stopExec (stopExec ⟨false, true, false, [4], 1, [3], [3, 4], 0⟩)
        = stopExec ⟨false, true, false, [4], 1, [3], [3, 4], 0⟩
    ∧ stopExec (⟨false, true, false, [4], 1, [3], [3, 4], 0⟩ : ExecState)
        = ⟨false, true, false, [4], 1, [3], [3, 4], 0⟩
    ∧ ExecStep 1 ⟨false, true, false, [4], 1, [3], [3, 4], 0⟩
        ⟨false, true, false, [4], 0, [3], [3, 4], 1⟩
    ∧ (⟨false, true, false, [4], 1, [3], [3, 4], 0⟩ : ExecState).ingestNil
          = true
    ∧ (⟨false, true, false, [4], 1, [3], [3, 4], 0⟩
        : ExecState).submitted = [3, 4] := by
  have h := limitingExecutor_stop_correct 1
    ⟨false, true, false, [4], 1, [3], [3, 4], 0⟩
    ⟨false, true, false, [4], 1, [3], [3, 4], 0⟩
  refine ⟨h.1, h.2.1 rfl, h.2.2.2.1 (by decide), ?_⟩
  have h2 := h.2.2.2.2.1 rfl Relation.ReflTransGen.refl
  exact ⟨h2.1, h2.2⟩
